import Mathlib

/-!
Verification of the rule-store server (`server.py`).

A shallow embedding of the document loading, lookup, search and
concatenation operations of the rule-store server.  Python strings are
modelled as `List Char` (a Python `str` is a sequence of code points);
Python's library primitives (`str.strip`, `str.count`, `str.find`,
`str.splitlines`, the `in` operator, `list.sort`) are given explicit
executable counterparts with the same semantics, restricted to ASCII
case-folding and `\n`/`\r` line breaks, which is the fragment the
documents use.

The store (the `rules/` directory) is modelled as a list of files, each a
stem (file name without the fixed `.mdc` extension) together with its raw
text; a directory cannot hold two files of the same name, so the stems of
a store are assumed distinct wherever that matters.
-/

namespace RuleStore

/-- ASCII lower-casing of a string, modelling `str.lower()` on the ASCII
fragment (each character lower-cased independently). -/
def lower (s : List Char) : List Char := s.map Char.toLower

/-- Right-hand counterpart of `List.dropWhile`: drop the longest suffix all of whose
characters satisfy `p`. -/
def dropWhileEnd (p : Char → Bool) (s : List Char) : List Char :=
  ((s.reverse).dropWhile p).reverse

/-- Python `str.strip()`: remove leading and trailing whitespace. -/
def pyStrip (s : List Char) : List Char :=
  dropWhileEnd Char.isWhitespace (s.dropWhile Char.isWhitespace)

/-- Python `str.strip(ch)` for a single character `ch`: remove ALL leading
and trailing occurrences of `ch` (not merely one layer). -/
def pyStripChar (ch : Char) (s : List Char) : List Char :=
  dropWhileEnd (fun c => c == ch) (s.dropWhile (fun c => c == ch))

/-- Python `s.startswith(pre)`, structurally recursive in the prefix. -/
def startsWith (pre s : List Char) : Bool :=
  match pre with
  | [] => true
  | a :: as =>
    match s with
    | [] => false
    | b :: bs => a == b && startsWith as bs

/-- Index of the first occurrence of `needle` in `hay` (`None` if absent).
The empty needle occurs at index 0 of every string, as in Python. -/
def firstIdx (needle : List Char) : List Char → Option Nat
  | [] => if needle.isEmpty then some 0 else none
  | c :: rest =>
    if startsWith needle (c :: rest) then some 0
    else (firstIdx needle rest).map (· + 1)

/-- Python `hay.find(needle, start)` (with `none` for `-1`): the least
index `i ≥ start` at which `needle` occurs, `none` when `start` exceeds
the length or there is no occurrence. -/
def pyFindFrom (hay needle : List Char) (start : Nat) : Option Nat :=
  if start ≤ hay.length then (firstIdx needle (hay.drop start)).map (· + start)
  else none

/-- Substring test, the Python `in` operator on strings. -/
def pyIn (needle hay : List Char) : Bool := (firstIdx needle hay).isSome

/-- Python slice `l[a:b]` (for `0 ≤ a ≤ b`). -/
def pySlice (s : List Char) (a b : Nat) : List Char := (s.drop a).take (b - a)

/-- Count of non-overlapping left-to-right occurrences, the scan underlying
Python `str.count` for a non-empty pattern: at each position, on a match
skip the whole pattern, otherwise advance one character.  The fuel
argument (instantiated with the hay's length, which bounds the number of
steps) makes the recursion structural. -/
def countAux (needle : List Char) : Nat → List Char → Nat
  | 0, _ => 0
  | _ + 1, [] => 0
  | fuel + 1, c :: rest =>
    if startsWith needle (c :: rest) then
      1 + countAux needle fuel (rest.drop (needle.length - 1))
    else
      countAux needle fuel rest

/-- Python `hay.count(needle)`: non-overlapping occurrences; for the empty
needle Python returns `len(hay) + 1`. -/
def pyCount (needle hay : List Char) : Nat :=
  if needle.isEmpty then hay.length + 1 else countAux needle hay.length hay

/-- Python `str.splitlines()` restricted to the `\n`, `\r\n` and `\r`
line breaks.  The accumulator holds the current line reversed. -/
def splitlinesAux : List Char → List Char → List (List Char)
  | acc, '\r' :: '\n' :: rest => acc.reverse :: splitlinesAux [] rest
  | acc, '\n' :: rest => acc.reverse :: splitlinesAux [] rest
  | acc, '\r' :: rest => acc.reverse :: splitlinesAux [] rest
  | acc, c :: rest => splitlinesAux (c :: acc) rest
  | acc, [] => if acc.isEmpty then [] else [acc.reverse]

/-- Python `str.splitlines()` (no trailing empty line for a trailing
newline, `[]` for the empty string). -/
def pySplitlines (s : List Char) : List (List Char) := splitlinesAux [] s

/-- The part of `l` after the first occurrence of `ch`, modelling
`l.split(ch, 1)[1]` (defined only when `ch` occurs, as guaranteed at the
call sites by the `startswith` guards). -/
def afterFirst (ch : Char) : List Char → Option (List Char)
  | [] => none
  | c :: rest => if c == ch then some rest else afterFirst ch rest

/-- A character of a `re` `[\w-]` class (ASCII fragment): letter, digit,
underscore or hyphen. -/
def isTagChar (c : Char) : Bool := c.isAlphanum || c == '_' || c == '-'

/-- Scan of `re.findall` for the pattern `[\w-]+`: the maximal runs of tag characters, left
to right.  The accumulator holds the run being built, reversed. -/
def tokensAux : Option (List Char) → List Char → List (List Char)
  | cur, [] => match cur with
    | some t => [t.reverse]
    | none => []
  | cur, c :: rest =>
    if isTagChar c then tokensAux (some (c :: cur.getD [])) rest
    else match cur with
      | some t => t.reverse :: tokensAux none rest
      | none => tokensAux none rest

/-- All maximal `[\w-]+` tokens of a string. -/
def findTokens (s : List Char) : List (List Char) := tokensAux none s

/-- A parsed document, the dict built by `_load_rule`. -/
structure Rule where
  name : List Char
  description : List Char
  tags : List (List Char)
  content : List Char
  filename : List Char
deriving DecidableEq, Repr

/-- The store's fixed extension. -/
def mdcExt : List Char := ".mdc".toList

/-- The frontmatter delimiter `---`. -/
def delim : List Char := "---".toList

/-- One iteration of the frontmatter line loop of `_load_rule`: the state
is the `(description, tags)` pair. -/
def procLine (st : List Char × List (List Char)) (line : List Char) :
    List Char × List (List Char) :=
  if startsWith ("description:".toList) line then
    (pyStripChar '"' (pyStrip ((afterFirst ':' line).getD [])), st.2)
  else if startsWith ("tags:".toList) line then
    let tagsStr := pyStrip ((afterFirst ':' line).getD [])
    (st.1, (findTokens tagsStr).map fun t =>
      pyStripChar (Char.ofNat 39) (pyStripChar '"' (pyStrip t)))
  else st

/-- Model of `_load_rule`, given the file's stem and raw text: detect a `---`
frontmatter block, scan its lines for `description:` and `tags:`, and
keep the stripped remainder as the body; any malformed input falls back
to an empty description, no tags and the verbatim text as body. -/
def loadRule (stem text : List Char) : Rule :=
  let base : Rule :=
    { name := stem, description := [], tags := [], content := text,
      filename := stem ++ mdcExt }
  if startsWith delim text then
    match pyFindFrom text delim 3 with
    | some e =>
      let frontmatter := pyStrip (pySlice text 3 e)
      let body := pyStrip (text.drop (e + 3))
      let st := (pySplitlines frontmatter).foldl procLine ([], [])
      { base with description := st.1, tags := st.2, content := body }
    | none => base
  else base

/-- A file of the store directory: its stem (name without the `.mdc`
extension) and its raw text. -/
structure MFile where
  stem : List Char
  text : List Char
deriving DecidableEq, Repr

/-- The on-disk file name. -/
def fileName (f : MFile) : List Char := f.stem ++ mdcExt

/-- Lexicographic order on strings by code point, the order in which
`sorted()` ranks the globbed paths. -/
def strLe : List Char → List Char → Bool
  | [], _ => true
  | _ :: _, [] => false
  | a :: as, b :: bs => if a == b then strLe as bs else decide (a.toNat < b.toNat)

/-- Comparison of two store files by file name. -/
def fileLe (f g : MFile) : Prop := strLe (fileName f) (fileName g) = true

instance : DecidableRel fileLe := fun f g => decEq _ _

/-- Model of `_all_rules`: the store's files sorted by file name
(`sorted(RULES_DIR.glob("*.mdc"))`), each parsed by `_load_rule`.
`List.insertionSort` is a stable sort, as Python's `sorted` is. -/
def allRules (store : List MFile) : List Rule :=
  (store.insertionSort fileLe).map fun f => loadRule f.stem f.text

/-- Python `s.removesuffix(suf)`: drop one trailing copy of `suf` when
present. -/
def removeSuffix (suf s : List Char) : List Char :=
  if suf.isSuffixOf s then s.take (s.length - suf.length) else s

/-- The `# Rule: ...` header plus body that `get_rule` renders for a
found document. -/
def formatRule (r : Rule) : List Char :=
  "# Rule: `".toList ++ r.name ++ "`\n**".toList ++ r.description ++
    "**\n\n---\n\n".toList ++ r.content

/-- Join with a separator, `sep.join(parts)`. -/
def joinSep (sep : List Char) : List (List Char) → List Char
  | [] => []
  | [x] => x
  | x :: y :: rest => x ++ sep ++ joinSep sep (y :: rest)

/-- The not-found message of `get_rule` when several fuzzy candidates
exist, listing all of them. -/
def ambiguousMsg (name : List Char) (close : List (List Char)) : List Char :=
  "Rule '".toList ++ name ++ "' not found. Did you mean one of: ".toList ++
    joinSep (", ".toList) (close.map fun c => "`".toList ++ c ++ "`".toList) ++
    "?\nUse list_rules() to see all available rules.".toList

/-- The not-found message of `get_rule` when no fuzzy candidate exists. -/
def notFoundMsg (name : List Char) : List Char :=
  "Rule '".toList ++ name ++
    "' not found. Use list_rules() to see all available rules.".toList

/-- The fuzzy-candidate list of `get_rule`: stems that contain the
normalised input as a case-insensitive substring. -/
def closeList (store : List MFile) (name : List Char) : List (List Char) :=
  (store.map MFile.stem).filter fun c => pyIn (lower name) (lower c)

/-- Model of `get_rule`: normalise the input by dropping one trailing `.mdc`, serve
the exactly-named file when it exists, otherwise fall back to the fuzzy
candidates: one candidate is served silently, several give the ambiguous
message, none the plain not-found message.  (The impossible inner `none`
branch — the single candidate came from the store — returns `[]`.) -/
def get_rule (store : List MFile) (name0 : List Char) : List Char :=
  let name := removeSuffix mdcExt name0
  match store.find? (fun f => f.stem == name) with
  | some f => formatRule (loadRule f.stem f.text)
  | none =>
    match closeList store name with
    | [c] =>
      match store.find? (fun f => f.stem == c) with
      | some f => formatRule (loadRule f.stem f.text)
      | none => []
    | [] => notFoundMsg name
    | c1 :: c2 :: rest => ambiguousMsg name (c1 :: c2 :: rest)

/-- Model of `rule_resource`, the resource accessor: delegates to `get_rule`. -/
def rule_resource (store : List MFile) (name : List Char) : List Char :=
  get_rule store name

/-- One search result of `search_rules` before rendering. -/
structure SearchResult where
  name : List Char
  description : List Char
  hits : Nat
  snippets : List (List Char)
deriving DecidableEq, Repr

/-- The snippet loop of `search_rules`: up to `fuel` (three) occurrences
of the lowered query in the lowered content, each rendered as the
whitespace-stripped window from 80 characters before the occurrence to
`len(query) + 80` characters after its start, wrapped in `  …`/`…`; the
scan resumes one character after each occurrence. -/
def snippetsAux (content contentLower queryLower : List Char) (qlen : Nat) :
    Nat → Nat → List (List Char)
  | 0, _ => []
  | fuel + 1, start =>
    match pyFindFrom contentLower queryLower start with
    | none => []
    | some idx =>
      let snip := pyStrip (pySlice content (idx - 80)
        (min content.length (idx + qlen + 80)))
      ("  …".toList ++ snip ++ "…".toList) ::
        snippetsAux content contentLower queryLower qlen fuel (idx + 1)

/-- The per-rule loop of `search_rules`: keep a rule when the lowered
query occurs in its lowered content (`hits`), name or description, and
record its hit count and snippets. -/
def searchLoop (queryLower : List Char) (qlen : Nat) : List Rule → List SearchResult
  | [] => []
  | r :: rest =>
    let contentLower := lower r.content
    let hits := pyCount queryLower contentLower
    let inName := pyIn queryLower (lower r.name)
    let inDesc := pyIn queryLower (lower r.description)
    if hits > 0 || inName || inDesc then
      { name := r.name, description := r.description, hits := hits,
        snippets := snippetsAux r.content contentLower queryLower qlen 3 0 } ::
        searchLoop queryLower qlen rest
    else searchLoop queryLower qlen rest

/-- Descending comparison by hit count, the key of
`results.sort(key=lambda r: r["hits"], reverse=True)`. -/
def hitsGe (a b : SearchResult) : Prop := b.hits ≤ a.hits

instance : DecidableRel hitsGe := fun a b => Nat.decLe _ _

instance : IsTotal SearchResult hitsGe := ⟨fun a b => Nat.le_total b.hits a.hits⟩

instance : IsTrans SearchResult hitsGe := ⟨fun _ _ _ h1 h2 => Nat.le_trans h2 h1⟩

/-- The structured result list of `search_rules`: the loop over
`_all_rules()` followed by the stable descending sort on hits
(`list.sort` is stable, as `List.insertionSort` is). -/
def searchResults (store : List MFile) (query : List Char) : List SearchResult :=
  (searchLoop (lower query) query.length (allRules store)).insertionSort hitsGe

/-- The inclusion condition of the `search_rules` loop: positive hit
count in the content, or the lowered query occurs in the lowered name or
description. -/
def includedB (queryLower : List Char) (r : Rule) : Bool :=
  decide (pyCount queryLower (lower r.content) > 0) ||
    pyIn queryLower (lower r.name) || pyIn queryLower (lower r.description)

/-- The 60-character `=` separator line of `get_all_rules`. -/
def eqLine : List Char := List.replicate 60 '='

/-- The `sections` list of `get_all_rules`: per rule, a separator line,
`RULE: ` plus the name, another separator line, the content, and an empty
string. -/
def ruleSections : List Rule → List (List Char)
  | [] => []
  | r :: rest =>
    eqLine :: ("RULE: ".toList ++ r.name) :: eqLine :: r.content :: [] ::
      ruleSections rest

/-- Model of `get_all_rules`, the join `"\n".join(sections)`. -/
def get_all_rules (store : List MFile) : List Char :=
  joinSep ['\n'] (ruleSections (allRules store))

/-- The separator header that precedes one document's content in the
`get_all_rules` output: a rule line, the document name, another rule
line. -/
def sepHeader (r : Rule) : List Char :=
  eqLine ++ ['\n'] ++ "RULE: ".toList ++ r.name ++ ['\n'] ++ eqLine ++ ['\n']

/-! Theorems. -/

/-- C1: the string-processing core of `_load_rule` is a total function
(it is defined for every input string, with no failure path), and
whenever the raw text does not begin with the `---` delimiter, or no
closing delimiter is found from offset 3 on, the parse yields an empty
description, no tags, and the raw text verbatim as content. -/
theorem loadRule_total_fallback (stem text : List Char)
    (h : startsWith delim text = false ∨ pyFindFrom text delim 3 = none) :
    loadRule stem text =
      { name := stem, description := [], tags := [], content := text,
        filename := stem ++ mdcExt } := by
  rcases h with h | h
  · simp [loadRule, h]
  · simp [loadRule, h]

/-- Witness for C1 at a concrete headerless text. -/
theorem loadRule_total_fallback_witness :
    loadRule ['r'] ("plain text".toList) =
      { name := ['r'], description := [], tags := [],
        content := "plain text".toList, filename := ['r'] ++ mdcExt } :=
  loadRule_total_fallback ['r'] ("plain text".toList) (Or.inl (by decide))

/-- C8: the resource-style accessor returns exactly the same string as
`get_rule` on every store and every input name. -/
theorem rule_resource_eq_get_rule (store : List MFile) (name : List Char) :
    rule_resource store name = get_rule store name := rfl

/-- C5 counterexample: on the header line `description: ""X""` the code
(`.strip('"')`) removes ALL surrounding double quotes and yields `X`,
not the claim's predicted single remaining layer `"X"`. -/
theorem description_strip_counterexample :
    (loadRule ['r'] ("---\ndescription: \"\"X\"\"\n---\nBODY".toList)).description
        = ['X']
    ∧ (['X'] : List Char) ≠ ['"', 'X', '"'] :=
  ⟨by decide, by decide⟩

/-- C5 amended: a header line beginning with `description:` sets the
description to the remainder of the line after the colon, trimmed, with
ALL leading and trailing double-quote characters removed (each side
independently, so `""X""` loses both layers and a lone unpaired quote is
removed too); in particular `description: "X"` yields `X` without
quotes. -/
theorem description_line_strips_all_quotes :
    (∀ (st : List Char × List (List Char)) (rest : List Char),
        procLine st (("description:".toList) ++ rest) =
          (pyStripChar '"' (pyStrip rest), st.2))
    ∧ (loadRule ['r'] ("---\ndescription: \"X\"\n---\nBODY".toList)).description
        = ['X']
    ∧ (loadRule ['r'] ("---\ndescription: \"\"X\"\"\n---\nBODY".toList)).description
        = ['X']
    ∧ (loadRule ['r'] ("---\ndescription: \"X\n---\nBODY".toList)).description
        = ['X'] :=
  ⟨fun _ _ => rfl, by decide, by decide, by decide⟩

/-- Helper: the snippet loop yields at most `fuel` snippets. -/
theorem snippetsAux_length_le (content cl ql : List Char) (qlen : Nat) :
    ∀ (fuel start : Nat), (snippetsAux content cl ql qlen fuel start).length ≤ fuel := by
  intro fuel
  induction fuel with
  | zero => intro start; simp [snippetsAux]
  | succ n ih =>
    intro start
    unfold snippetsAux
    cases pyFindFrom cl ql start with
    | none => simp
    | some idx =>
      simp only [List.length_cons]
      exact Nat.succ_le_succ (ih (idx + 1))

/-- Helper: every result of the search loop carries at most 3 snippets. -/
theorem searchLoop_snippets_le (ql : List Char) (qlen : Nat) (rules : List Rule)
    (res : SearchResult) (h : res ∈ searchLoop ql qlen rules) :
    res.snippets.length ≤ 3 := by
  induction rules with
  | nil => simp [searchLoop] at h
  | cons r rest ih =>
    simp only [searchLoop] at h
    split at h
    · rcases List.mem_cons.mp h with rfl | h
      · exact snippetsAux_length_le _ _ _ _ _ _
      · exact ih h
    · exact ih h

/-- C9: the snippet scan resumes one character after each found
occurrence while `hits` counts only non-overlapping occurrences, so the
document `aaa` searched for `aa` reports one hit yet carries two
snippets; the snippet count is bounded by 3 on every result, but not by
`hits`. -/
theorem snippets_not_bounded_by_hits :
    ((searchResults [⟨['a'], "aaa".toList⟩] ("aa".toList)).map fun r =>
        (r.hits, r.snippets.length)) = [(1, 2)]
    ∧ ∀ (store : List MFile) (q : List Char) (res : SearchResult),
        res ∈ searchResults store q → res.snippets.length ≤ 3 := by
  constructor
  · decide
  · intro store q res h
    simp only [searchResults, List.mem_insertionSort] at h
    exact searchLoop_snippets_le _ _ _ _ h

/-- Witness for C9's snippet bound at a concrete store, query and
result. -/
theorem snippets_not_bounded_by_hits_witness :
    (⟨['a'], [], 1, [("  …aaa…".toList), ("  …aaa…".toList)]⟩ : SearchResult) ∈
        searchResults ([⟨['a'], "aaa".toList⟩] : List MFile) ("aa".toList)
    ∧ (⟨['a'], [], 1, [("  …aaa…".toList), ("  …aaa…".toList)]⟩ :
        SearchResult).snippets.length ≤ 3 :=
  ⟨by decide,
    snippets_not_bounded_by_hits.2 ([⟨['a'], "aaa".toList⟩] : List MFile)
      ("aa".toList)
      ⟨['a'], [], 1, [("  …aaa…".toList), ("  …aaa…".toList)]⟩ (by decide)⟩

/-- Helper: on the empty query the search loop keeps every rule, with
`hits` the content length plus one. -/
theorem searchLoop_empty_query (qlen : Nat) (rules : List Rule) :
    searchLoop [] qlen rules = rules.map fun r =>
      { name := r.name, description := r.description,
        hits := r.content.length + 1,
        snippets := snippetsAux r.content (lower r.content) [] qlen 3 0 } := by
  induction rules with
  | nil => rfl
  | cons r rest ih =>
    have hlen : (lower r.content).length = r.content.length := List.length_map _ _
    simp [searchLoop, pyCount, ih, hlen]

/-- C6 counterexample: searching the empty query over a store holding one
document of content `x` returns that document with 2 hits (Python's
`count("")` is the length plus one), not with zero hits as claimed. -/
theorem empty_query_zero_hits_counterexample :
    ((searchResults [⟨['a'], ['x']⟩] []).map fun r => r.hits) = [2]
    ∧ (2 : Nat) ≠ 0 :=
  ⟨by decide, by decide⟩

/-- C6 amended: the empty query returns every document of the store
(exactly once), but each with `hits` equal to its content length plus
one — the count Python assigns to empty-string occurrences — so every
document is included because `hits > 0` (its name and description also
trivially contain the empty query). -/
theorem empty_query_returns_all (store : List MFile) :
    ((searchResults store []).map fun r => (r.name, r.hits)).Perm
      ((allRules store).map fun r => (r.name, r.content.length + 1)) := by
  have h1 : (searchResults store []).Perm (searchLoop [] 0 (allRules store)) :=
    List.perm_insertionSort _ _
  have h2 : (searchLoop [] 0 (allRules store)).map (fun r => (r.name, r.hits)) =
      (allRules store).map fun r => (r.name, r.content.length + 1) := by
    rw [searchLoop_empty_query, List.map_map]
    rfl
  exact (h1.map _).trans (h2 ▸ List.Perm.refl _)

/-- Helper: inserting a result into a list commutes with filtering one
hit-count class, because the insertion only walks past elements with
strictly more hits. -/
theorem filter_hits_orderedInsert (h : Nat) (x : SearchResult)
    (l : List SearchResult) :
    ((l.orderedInsert hitsGe x).filter fun r => r.hits == h) =
      ((x :: l).filter fun r => r.hits == h) := by
  induction l with
  | nil => rfl
  | cons b t ih =>
    by_cases hxb : hitsGe x b
    · rw [List.orderedInsert, if_pos hxb]
    · rw [List.orderedInsert, if_neg hxb]
      have hlt : x.hits < b.hits := Nat.lt_of_not_le hxb
      simp only [List.filter_cons, ih]
      by_cases hx : x.hits = h <;> by_cases hb : b.hits = h
      · exfalso; omega
      · simp [hx, hb]
      · simp [hx, hb]
      · simp [hx, hb]

/-- Helper: the stable insertion sort by descending hits preserves each
hit-count class of the input order. -/
theorem filter_hits_insertionSort (h : Nat) (l : List SearchResult) :
    ((l.insertionSort hitsGe).filter fun r => r.hits == h) =
      (l.filter fun r => r.hits == h) := by
  induction l with
  | nil => rfl
  | cons x t ih =>
    simp only [List.insertionSort, filter_hits_orderedInsert, List.filter_cons, ih]

/-- C3: search results are sorted in descending order of hits, and the
sort is stable — for every hit count, the results carrying that count
appear in exactly the order the pre-sort loop over `listAll()` produced
them; documents matched only by name or description carry `hits = 0` and
hence sort within the zero-hits group. -/
theorem search_sorted_descending_stable (store : List MFile) (q : List Char) :
    (searchResults store q).Pairwise (fun a b => b.hits ≤ a.hits)
    ∧ ∀ h : Nat, ((searchResults store q).filter fun r => r.hits == h) =
        ((searchLoop (lower q) q.length (allRules store)).filter
          fun r => r.hits == h) := by
  constructor
  · exact List.sorted_insertionSort hitsGe _
  · intro h
    exact filter_hits_insertionSort h _

/-- Helper: the name a parsed rule carries is the file's stem. -/
theorem loadRule_name (s t : List Char) : (loadRule s t).name = s := by
  simp only [loadRule]
  split
  · split <;> rfl
  · rfl

/-- Helper: counting results by name across the search loop reduces to
counting rules by name and inclusion. -/
theorem searchLoop_countP (ql : List Char) (qlen : Nat) (n : List Char)
    (rules : List Rule) :
    ((searchLoop ql qlen rules).countP fun res => res.name == n) =
      rules.countP fun r => (r.name == n) && includedB ql r := by
  induction rules with
  | nil => rfl
  | cons r rest ih =>
    simp only [searchLoop]
    split
    · rename_i hc
      have hc' : includedB ql r = true := hc
      rw [List.countP_cons, List.countP_cons, ih, hc']
      simp
    · rename_i hc
      have hc' : includedB ql r = false := Bool.eq_false_iff.mpr hc
      rw [List.countP_cons, ih, hc']
      simp

/-- Helper: with pairwise-distinct rule names, the count of rules whose
name is that of a member `rule` and which pass the inclusion test is one
or zero according to the test on `rule` itself. -/
theorem countP_name_nodup (q : List Char) (n : List Char) (rules : List Rule)
    (hnd : (rules.map Rule.name).Nodup) (rule : Rule) (hr : rule ∈ rules)
    (hn : rule.name = n) :
    (rules.countP fun r => (r.name == n) && includedB q r) =
      if includedB q rule then 1 else 0 := by
  induction rules with
  | nil => cases hr
  | cons r rest ih =>
    rw [List.map_cons, List.nodup_cons] at hnd
    rw [List.countP_cons]
    rcases List.mem_cons.mp hr with rfl | hmem
    · have hz : (rest.countP fun r => (r.name == n) && includedB q r) = 0 := by
        rw [List.countP_eq_zero]
        intro a ha
        have : a.name ≠ n := fun he =>
          hnd.1 (by rw [hn, ← he]; exact List.mem_map_of_mem _ ha)
        simp [this]
      rw [hz, hn]
      simp
    · have hne : (r.name == n) = false := by
        have : r.name ≠ n := fun he =>
          hnd.1 (by rw [he, ← hn]; exact List.mem_map_of_mem _ hmem)
        simp [this]
      rw [ih hnd.2 hmem, hne]
      simp

/-- Helper: every result of the search loop comes from some rule of the
scanned list, with that rule's name and its content's occurrence count
as `hits`. -/
theorem searchLoop_mem (ql : List Char) (qlen : Nat) (rules : List Rule)
    (res : SearchResult) (h : res ∈ searchLoop ql qlen rules) :
    ∃ r ∈ rules, res.name = r.name ∧ res.hits = pyCount ql (lower r.content) := by
  induction rules with
  | nil => simp [searchLoop] at h
  | cons r rest ih =>
    simp only [searchLoop] at h
    split at h
    · rcases List.mem_cons.mp h with rfl | h
      · exact ⟨r, List.mem_cons_self _ _, rfl, rfl⟩
      · obtain ⟨r', hr', hh⟩ := ih h
        exact ⟨r', List.mem_cons_of_mem _ hr', hh⟩
    · obtain ⟨r', hr', hh⟩ := ih h
      exact ⟨r', List.mem_cons_of_mem _ hr', hh⟩

/-- Helper: with distinct file stems, the parsed rules carry pairwise
distinct names (each rule's name is its file's stem). -/
theorem allRules_names_nodup (store : List MFile)
    (hnd : (store.map MFile.stem).Nodup) :
    ((allRules store).map Rule.name).Nodup := by
  have hperm : (store.insertionSort fileLe).Perm store :=
    List.perm_insertionSort _ _
  have heq : ((allRules store).map Rule.name) =
      (store.insertionSort fileLe).map MFile.stem := by
    rw [allRules, List.map_map]
    exact List.map_congr_left fun f _ => loadRule_name f.stem f.text
  rw [heq]
  exact ((hperm.map MFile.stem).nodup_iff).mpr hnd

/-- Helper: every store file's parsed rule is among `allRules`. -/
theorem mem_allRules (store : List MFile) (f : MFile) (hf : f ∈ store) :
    loadRule f.stem f.text ∈ allRules store := by
  rw [allRules]
  exact List.mem_map_of_mem _ ((List.perm_insertionSort _ _).mem_iff.mpr hf)

/-- C2: for every query and every document of a store (with the
filesystem's distinct file stems), the reported `hits` is the
non-overlapping left-to-right case-insensitive occurrence count of the
query within the document's content, and the document appears in the
results exactly once when `hits > 0` or the query occurs
case-insensitively in its name or description, and zero times
otherwise. -/
theorem search_hits_and_membership (store : List MFile) (q : List Char)
    (hnd : (store.map MFile.stem).Nodup) (f : MFile) (hf : f ∈ store) :
    ((searchResults store q).countP fun res =>
        res.name == (loadRule f.stem f.text).name) =
      (if includedB (lower q) (loadRule f.stem f.text) then 1 else 0)
    ∧ ∀ res ∈ searchResults store q,
        res.name = (loadRule f.stem f.text).name →
        res.hits = pyCount (lower q) (lower (loadRule f.stem f.text).content) := by
  have hperm := List.perm_insertionSort hitsGe
    (searchLoop (lower q) q.length (allRules store))
  have hmem := mem_allRules store f hf
  have hnodup := allRules_names_nodup store hnd
  constructor
  · rw [searchResults, hperm.countP_eq, searchLoop_countP]
    exact countP_name_nodup _ _ _ hnodup _ hmem rfl
  · intro res hres hname
    rw [searchResults] at hres
    obtain ⟨r', hr', hn', hh'⟩ :=
      searchLoop_mem _ _ _ _ (hperm.mem_iff.mp hres)
    have heq : r' = loadRule f.stem f.text :=
      List.inj_on_of_nodup_map hnodup hr' hmem (by rw [← hn', hname])
    rw [hh', heq]

/-- Witness for C2 at a concrete one-file store and query. -/
theorem search_hits_and_membership_witness :
    ((searchResults ([⟨['a'], "xx".toList⟩] : List MFile) ['x']).countP
        fun res => res.name == (loadRule ['a'] ("xx".toList)).name) =
      (if includedB (lower ['x']) (loadRule ['a'] ("xx".toList)) then 1
       else 0) :=
  (search_hits_and_membership ([⟨['a'], "xx".toList⟩] : List MFile) ['x']
    (by decide) ⟨['a'], "xx".toList⟩ (by decide)).1

/-- Helper: with distinct stems, `find?` on a member's stem returns that
member. -/
theorem find?_stem_eq (store : List MFile) (hnd : (store.map MFile.stem).Nodup)
    (f : MFile) (hf : f ∈ store) (n : List Char) (hn : f.stem = n) :
    store.find? (fun g => g.stem == n) = some f := by
  induction store with
  | nil => cases hf
  | cons g rest ih =>
    rw [List.map_cons, List.nodup_cons] at hnd
    rcases List.mem_cons.mp hf with rfl | hmem
    · exact List.find?_cons_of_pos _ (by simp [hn])
    · have hg : g.stem ≠ n := fun he =>
        hnd.1 (by rw [he, ← hn]; exact List.mem_map_of_mem _ hmem)
      rw [List.find?_cons_of_neg _ (by simp [hg])]
      exact ih hnd.2 hmem

/-- C4: `get_rule` is exact-match-first with a three-way fuzzy fallback.
After one trailing `.mdc` is trimmed, an exactly-named document is
served even when other stored names contain the input as a substring;
with no exact match, a single case-insensitive-substring candidate is
served silently, two or more candidates give the not-found message
carrying all candidate names, and no candidate gives the not-found
message with no candidate list. -/
theorem get_rule_exact_then_fuzzy (store : List MFile) (name0 : List Char)
    (hnd : (store.map MFile.stem).Nodup) :
    (∀ f ∈ store, f.stem = removeSuffix mdcExt name0 →
        get_rule store name0 = formatRule (loadRule f.stem f.text))
    ∧ ((∀ g ∈ store, g.stem ≠ removeSuffix mdcExt name0) →
        (∀ c, closeList store (removeSuffix mdcExt name0) = [c] →
          ∀ g ∈ store, g.stem = c →
            get_rule store name0 = formatRule (loadRule g.stem g.text))
        ∧ (2 ≤ (closeList store (removeSuffix mdcExt name0)).length →
            get_rule store name0 =
              ambiguousMsg (removeSuffix mdcExt name0)
                (closeList store (removeSuffix mdcExt name0)))
        ∧ (closeList store (removeSuffix mdcExt name0) = [] →
            get_rule store name0 = notFoundMsg (removeSuffix mdcExt name0))) := by
  constructor
  · intro f hf hstem
    have hfind := find?_stem_eq store hnd f hf _ hstem
    simp only [get_rule, hfind]
  · intro hnone
    have hfind : store.find?
        (fun f => f.stem == removeSuffix mdcExt name0) = none :=
      List.find?_eq_none.mpr fun g hg => by simp [hnone g hg]
    refine ⟨?_, ?_, ?_⟩
    · intro c hc g hg hgstem
      have hfind2 := find?_stem_eq store hnd g hg _ hgstem
      simp only [get_rule, hfind, hc, hfind2]
    · intro hlen
      rcases hcl : closeList store (removeSuffix mdcExt name0) with
        _ | ⟨c1, _ | ⟨c2, rest⟩⟩
      · rw [hcl] at hlen; simp at hlen
      · rw [hcl] at hlen; simp at hlen
      · simp only [get_rule, hfind, hcl]
    · intro hc
      simp only [get_rule, hfind, hc]

/-- Witness for C4's exact-match-first branch: `foo` is served exactly
even though `foo-bar` also contains it as a substring. -/
theorem get_rule_exact_then_fuzzy_witness :
    get_rule ([⟨"foo".toList, "A".toList⟩, ⟨"foo-bar".toList, "B".toList⟩] :
        List MFile) ("foo".toList) =
      formatRule (loadRule ("foo".toList) ("A".toList)) :=
  (get_rule_exact_then_fuzzy
    ([⟨"foo".toList, "A".toList⟩, ⟨"foo-bar".toList, "B".toList⟩] : List MFile)
    ("foo".toList) (by decide)).1 ⟨"foo".toList, "A".toList⟩ (by decide)
    (by decide)

/-- Helper: the join of the sections of a nonempty rule list, with one
final newline appended, decomposes into one block per rule: separator
header, full content, blank line. -/
theorem joinSections_decomp (rules : List Rule) (hne : rules ≠ []) :
    joinSep ['\n'] (ruleSections rules) ++ ['\n'] =
      rules.foldr
        (fun r acc => sepHeader r ++ r.content ++ ['\n', '\n'] ++ acc) [] := by
  induction rules with
  | nil => cases hne rfl
  | cons r rest ih =>
    cases rest with
    | nil => simp [ruleSections, joinSep, sepHeader]
    | cons r2 rest2 =>
      have ih' := ih (by simp)
      simp only [ruleSections, joinSep, List.foldr_cons, List.append_assoc,
        List.cons_append, List.nil_append] at ih' ⊢
      rw [ih']
      simp [sepHeader, List.append_assoc]

/-- C7: the `get_all_rules` output (with one final newline appended when
the store is nonempty) is exactly the concatenation, in `listAll()`
order, of one block per document: a separator header — rule line,
document name, rule line — then the document's full untruncated content,
then a blank line; so every content appears exactly once. -/
theorem get_all_rules_concat (store : List MFile) :
    get_all_rules store ++ (if (allRules store).isEmpty then [] else ['\n']) =
      (allRules store).foldr
        (fun r acc => sepHeader r ++ r.content ++ ['\n', '\n'] ++ acc) [] := by
  cases h : allRules store with
  | nil => simp [get_all_rules, h, ruleSections, joinSep]
  | cons r rest =>
    rw [get_all_rules, h]
    simpa using joinSections_decomp (r :: rest) (by simp)

/-- Helper: the empty needle occurs in every string, as in Python. -/
theorem pyIn_nil (hay : List Char) : pyIn [] hay = true := by
  cases hay <;> rfl

/-- C10: with no empty-stemmed file in the store, looking up the empty
name (or the bare extension `.mdc`, which normalises to the empty
string) makes every stored stem a fuzzy candidate: with two or more
documents the ambiguous not-found message lists every rule name, with
exactly one document that document is served silently, and `.mdc`
behaves exactly as the empty input. -/
theorem get_rule_empty_name (store : List MFile)
    (hs : ∀ f ∈ store, f.stem ≠ []) :
    (2 ≤ store.length →
      get_rule store [] = ambiguousMsg [] (store.map MFile.stem))
    ∧ (∀ f, store = [f] →
        get_rule store [] = formatRule (loadRule f.stem f.text))
    ∧ get_rule store mdcExt = get_rule store [] := by
  have hnm : removeSuffix mdcExt [] = [] := by decide
  have hnm2 : removeSuffix mdcExt mdcExt = [] := by decide
  have hfind : store.find? (fun f => f.stem == ([] : List Char)) = none :=
    List.find?_eq_none.mpr fun g hg => by simp [hs g hg]
  have hclose : closeList store [] = store.map MFile.stem := by
    rw [closeList]
    exact List.filter_eq_self.mpr fun c _ => pyIn_nil (lower c)
  refine ⟨?_, ?_, ?_⟩
  · intro hlen
    rcases store with _ | ⟨f1, _ | ⟨f2, rest⟩⟩
    · simp at hlen
    · simp at hlen
    · simp only [List.map_cons] at hclose
      simp only [get_rule, hfind, hclose, hnm, List.map_cons]
  · intro f hstore
    subst hstore
    have hcl : closeList [f] [] = [f.stem] := by
      rw [hclose, List.map_cons, List.map_nil]
    have hf2 : List.find? (fun g => g.stem == f.stem) [f] = some f :=
      List.find?_cons_of_pos _ (by simp)
    simp only [get_rule, hnm, hfind, hcl, hf2]
  · simp only [get_rule, hnm, hnm2]

/-- Witness for C10's ambiguous branch at a concrete two-file store. -/
theorem get_rule_empty_name_witness :
    get_rule ([⟨"foo-bar".toList, "B1".toList⟩,
        ⟨"foo-baz".toList, "B2".toList⟩] : List MFile) [] =
      ambiguousMsg []
        (([⟨"foo-bar".toList, "B1".toList⟩,
          ⟨"foo-baz".toList, "B2".toList⟩] : List MFile).map MFile.stem) :=
  (get_rule_empty_name
    ([⟨"foo-bar".toList, "B1".toList⟩,
      ⟨"foo-baz".toList, "B2".toList⟩] : List MFile) (by decide)).1
    (by decide)

end RuleStore
